import Mathlib

/-!
Verification of the gokv key-value store abstraction.

The development shallowly embeds:
* the JSON codec used by `storage.go` (`toJSON` / `fromJSON`, delegating to
  `encoding/json`) and by the MongoDB adapter's default `encoding.JSON` codec,
  as an executable serializer and parser over a JSON value type;
* the validation helpers `util.CheckKey` / `util.CheckKeyAndValue`;
* the MongoDB adapter `mongodb.Client` (`Set`/`Get`/`Delete` and their
  `WithContext` variants) from `mongodb/mongodb.go`, with the external mgo
  collection modelled as an in-memory list of documents keyed by `_id`.
-/

namespace Gokv

/-- Error kinds of the store contract.  Go returns `error` values; we model a
Go `error` result as `Option Err` with `none` standing for the `nil` error.
`invalidKey`/`invalidValue` are the validation errors, `serialization` /
`deserialization` the codec errors, and `notFound` models `mgo.ErrNotFound`. -/
inductive Err
  | invalidKey
  | invalidValue
  | serialization
  | deserialization
  | notFound
deriving DecidableEq, Repr

/-- JSON values: the universe of values the generic self-describing text
codec (`encoding/json`) can represent.  Numbers are modelled as integers,
strings and object keys as character lists. -/
inductive Jval
  | jnull
  | jbool (b : Bool)
  | jint (n : Int)
  | jstr (s : List Char)
  | jarr (xs : List Jval)
  | jobj (ms : List (List Char × Jval))

/-- The character for a decimal digit `d < 10` (ASCII `'0' + d`). -/
def digitChar (d : Nat) : Char := Char.ofNat (48 + d)

/-- The numeric value of a decimal digit character. -/
def digitVal (c : Char) : Nat := c.toNat - 48

/-- Whether `c` is an ASCII decimal digit. -/
def isDigitC (c : Char) : Bool := 48 ≤ c.toNat && c.toNat ≤ 57

/-- Decimal rendering of a natural number (most significant digit first). -/
def renderNat (n : Nat) : List Char :=
  if n = 0 then ['0'] else (Nat.digits 10 n).reverse.map digitChar

/-- Decimal rendering of an integer, with a leading minus sign if negative. -/
def renderInt (n : Int) : List Char :=
  if n < 0 then '-' :: renderNat n.natAbs else renderNat n.toNat

/-- JSON string escaping: quote and backslash get a backslash prefix. -/
def escape : List Char → List Char
  | [] => []
  | c :: cs => if c = '"' ∨ c = '\\' then '\\' :: c :: escape cs else c :: escape cs

mutual

/-- Serialize a JSON value to its textual form (no insignificant whitespace,
as produced by `encoding/json`). -/
def Jval.render : Jval → List Char
  | .jnull => ['n', 'u', 'l', 'l']
  | .jbool true => ['t', 'r', 'u', 'e']
  | .jbool false => ['f', 'a', 'l', 's', 'e']
  | .jint n => renderInt n
  | .jstr s => '"' :: (escape s ++ ['"'])
  | .jarr xs => '[' :: (renderElems xs ++ [']'])
  | .jobj ms => '\x7b' :: (renderMembers ms ++ ['\x7d'])

/-- Serialize the comma-separated element list of a JSON array. -/
def renderElems : List Jval → List Char
  | [] => []
  | [x] => x.render
  | x :: y :: ys => x.render ++ ',' :: renderElems (y :: ys)

/-- Serialize the comma-separated member list of a JSON object. -/
def renderMembers : List (List Char × Jval) → List Char
  | [] => []
  | [(k, v)] => '"' :: (escape k ++ ['"']) ++ ':' :: v.render
  | (k, v) :: m :: ms =>
      '"' :: (escape k ++ ['"']) ++ ':' :: v.render ++ ',' :: renderMembers (m :: ms)

end

/-- Parse the body of a JSON string up to (and consuming) the closing quote,
undoing `escape`. -/
def parseStrBody : List Char → Option (List Char × List Char)
  | [] => none
  | c :: r =>
    if c = '"' then some ([], r)
    else if c = '\\' then
      match r with
      | [] => none
      | d :: r2 =>
        match parseStrBody r2 with
        | none => none
        | some (s, rest) => some (d :: s, rest)
    else
      match parseStrBody r with
      | none => none
      | some (s, rest) => some (c :: s, rest)

/-- Greedily split the leading run of decimal digit characters off the input,
returning their numeric values (most significant first). -/
def parseDigits : List Char → List Nat × List Char
  | [] => ([], [])
  | c :: r =>
    if isDigitC c then
      let p := parseDigits r
      (digitVal c :: p.1, p.2)
    else ([], c :: r)

/-- Parse a decimal natural number (at least one digit). -/
def parseNat (s : List Char) : Option (Nat × List Char) :=
  match parseDigits s with
  | ([], _) => none
  | (ds, r) => some (Nat.ofDigits 10 ds.reverse, r)

/-- Parse a decimal integer with an optional leading minus sign. -/
def parseInt (s : List Char) : Option (Int × List Char) :=
  match s with
  | [] => none
  | c :: r =>
    if c = '-' then
      match parseNat r with
      | none => none
      | some (m, rest) => some (-(m : Int), rest)
    else
      match parseNat (c :: r) with
      | none => none
      | some (m, rest) => some ((m : Int), rest)

mutual

/-- Fueled recursive-descent parser for one JSON value. -/
def parseVal : Nat → List Char → Option (Jval × List Char)
  | 0, _ => none
  | _ + 1, [] => none
  | fuel + 1, c :: r =>
    if c = 'n' then
      match r with
      | 'u' :: 'l' :: 'l' :: rest => some (.jnull, rest)
      | _ => none
    else if c = 't' then
      match r with
      | 'r' :: 'u' :: 'e' :: rest => some (.jbool true, rest)
      | _ => none
    else if c = 'f' then
      match r with
      | 'a' :: 'l' :: 's' :: 'e' :: rest => some (.jbool false, rest)
      | _ => none
    else if c = '"' then
      match parseStrBody r with
      | none => none
      | some (s, rest) => some (.jstr s, rest)
    else if c = '[' then
      match r with
      | ']' :: rest => some (.jarr [], rest)
      | _ =>
        match parseElems fuel r with
        | none => none
        | some (xs, rest) => some (.jarr xs, rest)
    else if c = '\x7b' then
      match r with
      | '\x7d' :: rest => some (.jobj [], rest)
      | _ =>
        match parseMembers fuel r with
        | none => none
        | some (ms, rest) => some (.jobj ms, rest)
    else if c = '-' ∨ isDigitC c = true then
      match parseInt (c :: r) with
      | none => none
      | some (m, rest) => some (.jint m, rest)
    else none

/-- Parse the non-empty element list of a JSON array, consuming the
closing bracket. -/
def parseElems : Nat → List Char → Option (List Jval × List Char)
  | 0, _ => none
  | fuel + 1, s =>
    match parseVal fuel s with
    | none => none
    | some (v, r) =>
      match r with
      | ',' :: r2 =>
        match parseElems fuel r2 with
        | none => none
        | some (xs, rest) => some (v :: xs, rest)
      | ']' :: rest => some ([v], rest)
      | _ => none

/-- Parse the non-empty member list of a JSON object, consuming the
closing brace. -/
def parseMembers : Nat → List Char → Option (List (List Char × Jval) × List Char)
  | 0, _ => none
  | fuel + 1, s =>
    match s with
    | '"' :: r =>
      match parseStrBody r with
      | none => none
      | some (k, r2) =>
        match r2 with
        | ':' :: r3 =>
          match parseVal fuel r3 with
          | none => none
          | some (v, r4) =>
            match r4 with
            | ',' :: r5 =>
              match parseMembers fuel r5 with
              | none => none
              | some (ms, rest) => some ((k, v) :: ms, rest)
            | '\x7d' :: rest => some ([(k, v)], rest)
            | _ => none
        | _ => none
    | _ => none

end

/-- Parse a complete JSON document: the fuel `2 * length + 2` is enough for
any value whose rendering is the input (see `cost_le_render`). -/
def fromJsonChars (s : List Char) : Option Jval :=
  match parseVal (2 * s.length + 2) s with
  | some (v, []) => some v
  | _ => none

mutual

/-- Fuel needed by `parseVal` to parse the rendering of a value. -/
def Jval.cost : Jval → Nat
  | .jnull => 1
  | .jbool _ => 1
  | .jint _ => 1
  | .jstr _ => 1
  | .jarr xs => 1 + costElems xs
  | .jobj ms => 1 + costMembers ms

/-- Fuel needed by `parseElems` for an element list. -/
def costElems : List Jval → Nat
  | [] => 1
  | x :: xs => 1 + x.cost + costElems xs

/-- Fuel needed by `parseMembers` for a member list. -/
def costMembers : List (List Char × Jval) → Nat
  | [] => 1
  | (_, v) :: ms => 1 + v.cost + costMembers ms

end

/-- The continuation after a rendered value never starts with a digit, so the
greedy number parser stops at the right place. -/
def noDigitStart : List Char → Prop
  | [] => True
  | c :: _ => isDigitC c = false

/-- Modelled from the spec: the codec contract of §4.1 / `encoding.Codec`
(not under `src/`).  `marshal` turns a value into a byte sequence or fails
with a serialization error; `unmarshal` populates a destination from a byte
sequence, returning the (possibly partially modified) destination together
with a deserialization error on malformed input.  Go's `error` is `Option
Err`, the destination is threaded explicitly in place of the Go pointer. -/
structure Codec (V : Type) where
  marshal : V → Except Err (List Char)
  unmarshal : List Char → V → Option Err × V

/-- Modelled from the spec: the generic self-describing text codec
(`encoding.JSON`, i.e. `toJSON`/`fromJSON` delegating to `encoding/json`).
Marshalling renders the JSON value; unmarshalling parses the bytes, leaving
the destination untouched and reporting a deserialization error when the
payload is malformed. -/
def jsonCodec : Codec Jval where
  marshal v := Except.ok v.render
  unmarshal data dest :=
    match fromJsonChars data with
    | some v => (none, v)
    | none => (some Err.deserialization, dest)

/-! ## Validation (`util.CheckKey`, `util.CheckKeyAndValue`) -/

/-- Modelled from the spec: `util.CheckKey` (not under `src/`) fails with
`InvalidKeyError` if the key is the empty string. -/
def CheckKey (k : String) : Option Err :=
  if k = "" then some Err.invalidKey else none

/-- Modelled from the spec: `util.CheckKeyAndValue` (not under `src/`) runs
`CheckKey`, then fails with `InvalidValueError` if the value is a nil
reference.  A Go `any` that may be nil is modelled as `Option V` with `none`
standing for nil. -/
def CheckKeyAndValue {V : Type} (k : String) (v : Option V) : Option Err :=
  match CheckKey k with
  | some e => some e
  | none => if v.isNone then some Err.invalidValue else none

/-! ## The MongoDB adapter (`mongodb/mongodb.go`)

The external mgo collection is modelled as an in-memory list of documents
keyed by the `_id` field, with `FindId`, `UpsertId` and `RemoveId` acting on
the first document whose `_id` matches (MongoDB guarantees `_id`
uniqueness, captured by the `UniqueKeys` invariant where needed). -/

/-- The document stored in the MongoDB collection (`item` in
`mongodb/mongodb.go`): the key as `_id` and the codec-produced payload. -/
structure Item where
  K : String
  V : List Char
deriving DecidableEq, Repr

/-- The mgo collection, modelled as the list of its documents. -/
abbrev Collection := List Item

/-- `FindId`: the first document whose `_id` is `k`, if any; `none` models
`mgo.ErrNotFound`. -/
def findId : Collection → String → Option Item
  | [], _ => none
  | it :: rest, k => if it.K = k then some it else findId rest k

/-- `UpsertId`: replace the document whose `_id` is `k`, or insert the new
document if none exists. -/
def upsertId : Collection → String → Item → Collection
  | [], _, it => [it]
  | j :: rest, k, it => if j.K = k then it :: rest else j :: upsertId rest k it

/-- `RemoveId`: remove the document whose `_id` is `k`, returning
`mgo.ErrNotFound` (and the unchanged collection) if none exists. -/
def removeId : Collection → String → Option Err × Collection
  | [], _ => (some Err.notFound, [])
  | j :: rest, k =>
    if j.K = k then (none, rest)
    else
      let r := removeId rest k
      (r.1, j :: r.2)

/-- The `_id` values of a collection are pairwise distinct — the invariant
MongoDB maintains for every real collection. -/
def UniqueKeys (st : Collection) : Prop := (st.map Item.K).Nodup

/-- A Go `context.Context`: `background` is `context.Background()`; other
values model derived contexts.  The adapter never inspects it. -/
inductive Ctx
  | background
  | other (n : Nat)
deriving DecidableEq, Repr

/-- The `mongodb.Client`: the collection handle and session are the engine
state (threaded explicitly through each operation), so the client value
itself carries only the configured codec. -/
structure Client (V : Type) where
  codec : Codec V

/-- `Client.SetWithContext` from `mongodb/mongodb.go`: validate, marshal,
upsert.  The context argument is ignored by the source; the collection state
is passed and returned explicitly.  Result: the returned Go error and the
collection afterwards. -/
def Client.SetWithContext {V : Type} (c : Client V) (_ctx : Ctx) (st : Collection)
    (k : String) (v : Option V) : Option Err × Collection :=
  match CheckKeyAndValue k v with
  | some e => (some e, st)
  | none =>
    match v with
    | none => (some Err.invalidValue, st) -- unreachable: validation rejects nil values
    | some w =>
      match c.codec.marshal w with
      | Except.error e => (some e, st)
      | Except.ok data => (none, upsertId st k ⟨k, data⟩)

/-- `Client.Set`: delegates to `SetWithContext` with `context.Background()`. -/
def Client.Set {V : Type} (c : Client V) (st : Collection) (k : String) (v : Option V) :
    Option Err × Collection :=
  c.SetWithContext Ctx.background st k v

/-- `Client.GetWithContext` from `mongodb/mongodb.go`: validate, `FindId`,
unmarshal into the destination.  Result: the `found` flag, the returned Go
error, and the destination afterwards (the caller's pointer target). -/
def Client.GetWithContext {V : Type} (c : Client V) (_ctx : Ctx) (st : Collection)
    (k : String) (v : Option V) : Bool × Option Err × Option V :=
  match CheckKeyAndValue k v with
  | some e => (false, some e, v)
  | none =>
    match findId st k with
    | none => (false, none, v) -- mgo.ErrNotFound: return (false, nil)
    | some it =>
      match v with
      | none => (false, some Err.invalidValue, v) -- unreachable: validation rejects nil pointers
      | some d =>
        let r := c.codec.unmarshal it.V d
        (true, r.1, some r.2)

/-- `Client.Get`: delegates to `GetWithContext` with `context.Background()`. -/
def Client.Get {V : Type} (c : Client V) (st : Collection) (k : String) (v : Option V) :
    Bool × Option Err × Option V :=
  c.GetWithContext Ctx.background st k v

/-- `Client.DeleteWithContext` from `mongodb/mongodb.go`: validate,
`RemoveId`, and swallow only `mgo.ErrNotFound`. -/
def Client.DeleteWithContext {V : Type} (c : Client V) (_ctx : Ctx) (st : Collection)
    (k : String) : Option Err × Collection :=
  match CheckKey k with
  | some e => (some e, st)
  | none =>
    let r := removeId st k
    if r.1 ≠ some Err.notFound then (r.1, r.2) else (none, r.2)

/-- `Client.Delete`: delegates to `DeleteWithContext` with
`context.Background()`. -/
def Client.Delete {V : Type} (c : Client V) (st : Collection) (k : String) :
    Option Err × Collection :=
  c.DeleteWithContext Ctx.background st k

/-- A client configured with the JSON codec (the default configuration). -/
def jsonClient : Client Jval := ⟨jsonCodec⟩

/-! ## Round-trip of the number rendering -/

theorem digitVal_digitChar {d : Nat} (hd : d < 10) : digitVal (digitChar d) = d := by
  interval_cases d <;> decide

theorem isDigitC_digitChar {d : Nat} (hd : d < 10) : isDigitC (digitChar d) = true := by
  interval_cases d <;> decide

theorem ne_of_isDigitC {c x : Char} (h : isDigitC c = true) (hx : isDigitC x = false) :
    c ≠ x := by
  intro he
  rw [he, hx] at h
  cases h

theorem parseDigits_noDigit (rest : List Char) (hr : noDigitStart rest) :
    parseDigits rest = ([], rest) := by
  cases rest with
  | nil => rfl
  | cons c cs =>
    unfold noDigitStart at hr
    simp [parseDigits, hr]

theorem parseDigits_append (ds : List Nat) (hd : ∀ d ∈ ds, d < 10) (rest : List Char)
    (hr : noDigitStart rest) :
    parseDigits (ds.map digitChar ++ rest) = (ds, rest) := by
  induction ds with
  | nil =>
    simpa using parseDigits_noDigit rest hr
  | cons d ds ih =>
    have hd0 : d < 10 := hd d (by simp)
    have ihh := ih (fun x hx => hd x (by simp [hx]))
    simp [parseDigits, isDigitC_digitChar hd0, digitVal_digitChar hd0, ihh]

theorem renderNat_shape (m : Nat) :
    ∃ c cs, renderNat m = c :: cs ∧ isDigitC c = true := by
  by_cases h0 : m = 0
  · exact ⟨'0', [], by simp [h0, renderNat], by decide⟩
  · have hne : (Nat.digits 10 m).reverse ≠ [] := by
      simp [Nat.digits_ne_nil_iff_ne_zero.mpr h0]
    obtain ⟨d, ds, hds⟩ := List.exists_cons_of_ne_nil hne
    have hdlt : d < 10 := by
      have hmem : d ∈ Nat.digits 10 m := by
        rw [← List.mem_reverse, hds]
        simp
      exact Nat.digits_lt_base (by norm_num) hmem
    refine ⟨digitChar d, ds.map digitChar, ?_, isDigitC_digitChar hdlt⟩
    simp [renderNat, h0, hds]

theorem renderNat_digits (m : Nat) (hm : m ≠ 0) :
    renderNat m = ((Nat.digits 10 m).reverse).map digitChar := by
  simp [renderNat, hm]

theorem parseNat_renderNat (n : Nat) (rest : List Char) (hr : noDigitStart rest) :
    parseNat (renderNat n ++ rest) = some (n, rest) := by
  by_cases h0 : n = 0
  · subst h0
    have h1 : renderNat 0 = [digitChar 0] := by decide
    have h2 : parseDigits ([digitChar 0] ++ rest) = ([0], rest) :=
      parseDigits_append [0] (by simp) rest hr
    rw [h1]
    unfold parseNat
    rw [h2]
    simp [Nat.ofDigits]
  · have hall : ∀ d ∈ (Nat.digits 10 n).reverse, d < 10 := by
      intro d hdm
      exact Nat.digits_lt_base (by norm_num) (List.mem_reverse.mp hdm)
    have h2 := parseDigits_append ((Nat.digits 10 n).reverse) hall rest hr
    have hne : (Nat.digits 10 n).reverse ≠ [] := by
      simp [Nat.digits_ne_nil_iff_ne_zero.mpr h0]
    obtain ⟨d, ds, hds⟩ := List.exists_cons_of_ne_nil hne
    rw [renderNat_digits n h0]
    unfold parseNat
    rw [h2, hds]
    have hofd : Nat.ofDigits 10 (ds.reverse ++ [d]) = n := by
      rw [← List.reverse_cons, ← hds, List.reverse_reverse]
      exact Nat.ofDigits_digits 10 n
    simp [hofd]

theorem parseInt_renderInt (n : Int) (rest : List Char) (hr : noDigitStart rest) :
    parseInt (renderInt n ++ rest) = some (n, rest) := by
  unfold renderInt
  by_cases hn : n < 0
  · rw [if_pos hn]
    have h1 : ('-' :: renderNat n.natAbs) ++ rest = '-' :: (renderNat n.natAbs ++ rest) := rfl
    rw [h1]
    unfold parseInt
    have habs : -((n.natAbs : Nat) : Int) = n := by omega
    simp [parseNat_renderNat n.natAbs rest hr, habs, abs_of_neg hn]
  · rw [if_neg hn]
    obtain ⟨c, cs, hshape, hdig⟩ := renderNat_shape n.toNat
    have hcm : c ≠ '-' := ne_of_isDigitC hdig (by decide)
    rw [hshape]
    have h1 : (c :: cs) ++ rest = c :: (cs ++ rest) := rfl
    rw [h1]
    unfold parseInt
    have h2 : (c :: (cs ++ rest)) = renderNat n.toNat ++ rest := by rw [← h1, ← hshape]
    have htn : ((n.toNat : Nat) : Int) = n := by omega
    simp [hcm, h2, parseNat_renderNat n.toNat rest hr, htn]

/-! ## Round-trip of the string escaping -/

theorem parseStrBody_escape (s rest : List Char) :
    parseStrBody (escape s ++ '"' :: rest) = some (s, rest) := by
  induction s with
  | nil =>
    unfold parseStrBody
    rfl
  | cons c cs ih =>
    unfold escape
    by_cases hc : c = '"' ∨ c = '\\'
    · rw [if_pos hc]
      have h1 : ('\\' :: c :: escape cs) ++ '"' :: rest =
          '\\' :: c :: (escape cs ++ '"' :: rest) := rfl
      rw [h1, parseStrBody.eq_def]
      simp [ih]
    · rw [if_neg hc]
      push_neg at hc
      have h1 : (c :: escape cs) ++ '"' :: rest = c :: (escape cs ++ '"' :: rest) := rfl
      rw [h1, parseStrBody.eq_def]
      simp [hc.1, hc.2, ih]

/-! ## Shape and dispatch lemmas for the value parser -/

theorem noDigitStart_cons {c : Char} (l : List Char) (h : isDigitC c = false) :
    noDigitStart (c :: l) := h

theorem noDigitStart_nil : noDigitStart [] := trivial

theorem cost_pos (v : Jval) : 1 ≤ v.cost := by
  cases v <;> simp [Jval.cost] <;> omega

theorem costElems_pos (xs : List Jval) : 1 ≤ costElems xs := by
  cases xs <;> simp [costElems] <;> omega

theorem costMembers_pos (ms : List (List Char × Jval)) : 1 ≤ costMembers ms := by
  cases ms with
  | nil => simp [costMembers]
  | cons m ms => obtain ⟨k, w⟩ := m; simp [costMembers]; omega

theorem render_shape (v : Jval) : ∃ c cs, v.render = c :: cs ∧ c ≠ ']' := by
  cases v with
  | jnull => exact ⟨'n', ['u', 'l', 'l'], by simp [Jval.render], by decide⟩
  | jbool b => cases b with
    | true => exact ⟨'t', ['r', 'u', 'e'], by simp [Jval.render], by decide⟩
    | false => exact ⟨'f', ['a', 'l', 's', 'e'], by simp [Jval.render], by decide⟩
  | jint n =>
    by_cases hn : n < 0
    · exact ⟨'-', renderNat n.natAbs, by simp [Jval.render, renderInt, hn], by decide⟩
    · obtain ⟨c, cs, hshape, hdig⟩ := renderNat_shape n.toNat
      exact ⟨c, cs, by simp [Jval.render, renderInt, hn, hshape],
        ne_of_isDigitC hdig (show isDigitC ']' = false by decide)⟩
  | jstr s => exact ⟨'"', escape s ++ ['"'], by simp [Jval.render], by decide⟩
  | jarr xs => exact ⟨'[', renderElems xs ++ [']'], by simp [Jval.render], by decide⟩
  | jobj ms => exact ⟨'\x7b', renderMembers ms ++ ['\x7d'], by simp [Jval.render], by decide⟩

theorem parseVal_digit (f : Nat) (c : Char) (cs : List Char) (hdig : isDigitC c = true) :
    parseVal (f + 1) (c :: cs) =
      (match parseInt (c :: cs) with
       | none => none
       | some (m, r) => some (.jint m, r)) := by
  have hn : c ≠ 'n' := ne_of_isDigitC hdig (show isDigitC 'n' = false by decide)
  have ht : c ≠ 't' := ne_of_isDigitC hdig (show isDigitC 't' = false by decide)
  have hf : c ≠ 'f' := ne_of_isDigitC hdig (show isDigitC 'f' = false by decide)
  have hq : c ≠ '"' := ne_of_isDigitC hdig (show isDigitC '"' = false by decide)
  have hlb : c ≠ '[' := ne_of_isDigitC hdig (show isDigitC '[' = false by decide)
  have hob : c ≠ '\x7b' := ne_of_isDigitC hdig (show isDigitC '\x7b' = false by decide)
  have h0 : parseVal (f + 1) (c :: cs) =
      (if c = 'n' then
        match cs with
        | 'u' :: 'l' :: 'l' :: rest => some (.jnull, rest)
        | _ => none
      else if c = 't' then
        match cs with
        | 'r' :: 'u' :: 'e' :: rest => some (.jbool true, rest)
        | _ => none
      else if c = 'f' then
        match cs with
        | 'a' :: 'l' :: 's' :: 'e' :: rest => some (.jbool false, rest)
        | _ => none
      else if c = '"' then
        match parseStrBody cs with
        | none => none
        | some (s, rest) => some (.jstr s, rest)
      else if c = '[' then
        match cs with
        | ']' :: rest => some (.jarr [], rest)
        | _ =>
          match parseElems f cs with
          | none => none
          | some (xs, rest) => some (.jarr xs, rest)
      else if c = '\x7b' then
        match cs with
        | '\x7d' :: rest => some (.jobj [], rest)
        | _ =>
          match parseMembers f cs with
          | none => none
          | some (ms, rest) => some (.jobj ms, rest)
      else if c = '-' ∨ isDigitC c = true then
        match parseInt (c :: cs) with
        | none => none
        | some (m, rest) => some (.jint m, rest)
      else none) := rfl
  rw [h0]
  simp [hn, ht, hf, hq, hlb, hob, hdig]

theorem parseVal_arr (f : Nat) (c : Char) (cs : List Char) (hc : c ≠ ']') :
    parseVal (f + 1) ('[' :: c :: cs) =
      (match parseElems f (c :: cs) with
       | none => none
       | some (xs, rest) => some (.jarr xs, rest)) := by
  have h0 : parseVal (f + 1) ('[' :: c :: cs) =
      (match (c :: cs : List Char) with
       | ']' :: rest => some (.jarr [], rest)
       | _ =>
         match parseElems f (c :: cs) with
         | none => none
         | some (xs, rest) => some (.jarr xs, rest)) := rfl
  rw [h0]
  split
  next r rest heq =>
    rw [List.cons.injEq] at heq
    exact absurd heq.1 hc
  next r hne => rfl


theorem costMembers_cons (p : List Char × Jval) (ms : List (List Char × Jval)) :
    costMembers (p :: ms) = 1 + p.2.cost + costMembers ms := by
  obtain ⟨k, w⟩ := p
  simp [costMembers]

theorem costMembers_nil_eq : costMembers [] = 1 := by
  simp [costMembers]

mutual

theorem parseVal_render (v : Jval) (fuel : Nat) (rest : List Char)
    (hc : v.cost ≤ fuel) (hr : noDigitStart rest) :
    parseVal fuel (v.render ++ rest) = some (v, rest) := by
  obtain ⟨f, rfl⟩ : ∃ f, fuel = f + 1 := ⟨fuel - 1, by have := cost_pos v; omega⟩
  cases v with
  | jnull =>
    simp only [Jval.render]
    rfl
  | jbool b =>
    cases b <;> (simp only [Jval.render]; rfl)
  | jint n =>
    by_cases hn : n < 0
    · have hren : (Jval.jint n).render = '-' :: renderNat n.natAbs := by
        simp [Jval.render, renderInt, hn]
      rw [hren]
      have h1 : ('-' :: renderNat n.natAbs) ++ rest = '-' :: (renderNat n.natAbs ++ rest) := rfl
      rw [h1]
      have h2 : parseVal (f + 1) ('-' :: (renderNat n.natAbs ++ rest)) =
          (match parseInt ('-' :: (renderNat n.natAbs ++ rest)) with
           | none => none
           | some (m, r) => some (.jint m, r)) := rfl
      rw [h2]
      have h3 : ('-' :: (renderNat n.natAbs ++ rest)) = renderInt n ++ rest := by
        simp [renderInt, hn]
      rw [h3, parseInt_renderInt n rest hr]
    · obtain ⟨c, cs, hshape, hdig⟩ := renderNat_shape n.toNat
      have hren : (Jval.jint n).render = c :: cs := by
        simp [Jval.render, renderInt, hn, hshape]
      rw [hren]
      have h1 : (c :: cs) ++ rest = c :: (cs ++ rest) := rfl
      rw [h1, parseVal_digit f c (cs ++ rest) hdig]
      have h3 : (c :: (cs ++ rest)) = renderInt n ++ rest := by
        simp [renderInt, hn, hshape]
      rw [h3, parseInt_renderInt n rest hr]
  | jstr s =>
    have h1 : (Jval.jstr s).render ++ rest = '"' :: (escape s ++ '"' :: rest) := by
      simp [Jval.render]
    rw [h1]
    have h2 : parseVal (f + 1) ('"' :: (escape s ++ '"' :: rest)) =
        (match parseStrBody (escape s ++ '"' :: rest) with
         | none => none
         | some (t, r) => some (.jstr t, r)) := rfl
    rw [h2, parseStrBody_escape]
  | jarr xs =>
    cases xs with
    | nil =>
      have h1 : (Jval.jarr []).render ++ rest = '[' :: ']' :: rest := by
        simp [Jval.render, renderElems]
      rw [h1]
      rfl
    | cons x xs =>
      have hcost : costElems (x :: xs) ≤ f := by
        simp [Jval.cost] at hc; omega
      have hrec := parseElems_render x xs f rest hcost
      obtain ⟨c, cs, hxshape, hcne⟩ := render_shape x
      have hEshape : ∃ t, renderElems (x :: xs) = c :: t := by
        cases xs with
        | nil => exact ⟨cs, by simp [renderElems, hxshape]⟩
        | cons y ys =>
          exact ⟨cs ++ ',' :: renderElems (y :: ys), by simp [renderElems, hxshape]⟩
      obtain ⟨t, ht⟩ := hEshape
      have h1 : (Jval.jarr (x :: xs)).render ++ rest = '[' :: c :: (t ++ ']' :: rest) := by
        simp [Jval.render, ht]
      rw [h1, parseVal_arr f c (t ++ ']' :: rest) hcne]
      have h2 : (c :: (t ++ ']' :: rest)) = renderElems (x :: xs) ++ ']' :: rest := by
        simp [ht]
      rw [h2, hrec]
  | jobj ms =>
    cases ms with
    | nil =>
      have h1 : (Jval.jobj []).render ++ rest = '\x7b' :: '\x7d' :: rest := by
        simp [Jval.render, renderMembers]
      rw [h1]
      rfl
    | cons m ms =>
      have hcost : costMembers (m :: ms) ≤ f := by
        simp [Jval.cost] at hc; omega
      have hrec := parseMembers_render m ms f rest hcost
      obtain ⟨k, w⟩ := m
      have hMshape : ∃ t, renderMembers ((k, w) :: ms) = '"' :: t := by
        cases ms with
        | nil => exact ⟨escape k ++ '"' :: ':' :: w.render, by simp [renderMembers]⟩
        | cons m2 ms2 =>
          obtain ⟨k2, w2⟩ := m2
          exact ⟨escape k ++ '"' :: ':' :: (w.render ++ ',' :: renderMembers ((k2, w2) :: ms2)),
            by simp [renderMembers]⟩
      obtain ⟨t, ht⟩ := hMshape
      have h1 : (Jval.jobj ((k, w) :: ms)).render ++ rest =
          '\x7b' :: '"' :: (t ++ '\x7d' :: rest) := by
        simp [Jval.render, ht]
      rw [h1]
      have h2 : parseVal (f + 1) ('\x7b' :: '"' :: (t ++ '\x7d' :: rest)) =
          (match parseMembers f ('"' :: (t ++ '\x7d' :: rest)) with
           | none => none
           | some (ms2, r) => some (.jobj ms2, r)) := rfl
      rw [h2]
      have h3 : ('"' :: (t ++ '\x7d' :: rest)) =
          renderMembers ((k, w) :: ms) ++ '\x7d' :: rest := by
        simp [ht]
      rw [h3, hrec]
termination_by sizeOf v
decreasing_by
  all_goals try subst_vars
  all_goals try rcases m with ⟨mk, mv⟩
  all_goals try simp_wf
  all_goals try simp
  all_goals omega

theorem parseElems_render (x : Jval) (xs : List Jval) (fuel : Nat) (rest : List Char)
    (hc : costElems (x :: xs) ≤ fuel) :
    parseElems fuel (renderElems (x :: xs) ++ ']' :: rest) = some (x :: xs, rest) := by
  obtain ⟨f, rfl⟩ : ∃ f, fuel = f + 1 :=
    ⟨fuel - 1, by have := costElems_pos (x :: xs); omega⟩
  have h2 : ∀ s, parseElems (f + 1) s =
      (match parseVal f s with
       | none => none
       | some (v, r) =>
         match r with
         | ',' :: r2 =>
           match parseElems f r2 with
           | none => none
           | some (vs, r3) => some (v :: vs, r3)
         | ']' :: r3 => some ([v], r3)
         | _ => none) := fun s => rfl
  cases xs with
  | nil =>
    have hcx : x.cost ≤ f := by simp [costElems] at hc; omega
    have h1 : renderElems [x] ++ ']' :: rest = x.render ++ ']' :: rest := by
      simp [renderElems]
    rw [h1, h2, parseVal_render x f (']' :: rest) hcx (noDigitStart_cons _ (by decide))]
    rfl
  | cons y ys =>
    have hcx : x.cost ≤ f := by simp [costElems] at hc; omega
    have hcy : costElems (y :: ys) ≤ f := by simp [costElems] at hc ⊢; omega
    have hrec := parseElems_render y ys f rest hcy
    have h1 : renderElems (x :: y :: ys) ++ ']' :: rest =
        x.render ++ (',' :: (renderElems (y :: ys) ++ ']' :: rest)) := by
      simp [renderElems]
    rw [h1, h2,
      parseVal_render x f (',' :: (renderElems (y :: ys) ++ ']' :: rest)) hcx
        (noDigitStart_cons _ (by decide))]
    simp [hrec]
termination_by 1 + sizeOf x + sizeOf xs
decreasing_by
  all_goals try subst_vars
  all_goals try rcases m with ⟨mk, mv⟩
  all_goals try simp_wf
  all_goals try simp
  all_goals omega

theorem parseMembers_render (m : List Char × Jval) (ms : List (List Char × Jval))
    (fuel : Nat) (rest : List Char) (hc : costMembers (m :: ms) ≤ fuel) :
    parseMembers fuel (renderMembers (m :: ms) ++ '\x7d' :: rest) =
      some (m :: ms, rest) := by
  obtain ⟨f, rfl⟩ : ∃ f, fuel = f + 1 :=
    ⟨fuel - 1, by have := costMembers_pos (m :: ms); omega⟩
  have h2 : ∀ t, parseMembers (f + 1) ('"' :: t) =
      (match parseStrBody t with
       | none => none
       | some (k2, r2) =>
         match r2 with
         | ':' :: r3 =>
           match parseVal f r3 with
           | none => none
           | some (v, r4) =>
             match r4 with
             | ',' :: r5 =>
               match parseMembers f r5 with
               | none => none
               | some (ms2, r6) => some ((k2, v) :: ms2, r6)
             | '\x7d' :: r6 => some ([(k2, v)], r6)
             | _ => none
         | _ => none) := fun t => rfl
  cases ms with
  | nil =>
    have hcw : (m.2).cost ≤ f := by
      rw [costMembers_cons, costMembers_nil_eq] at hc
      omega
    have hvrec := parseVal_render m.2 f ('\x7d' :: rest) hcw (noDigitStart_cons _ (by decide))
    obtain ⟨k, w⟩ := m
    replace hvrec : parseVal f (w.render ++ '\x7d' :: rest) = some (w, '\x7d' :: rest) := hvrec
    have h1 : renderMembers [(k, w)] ++ '\x7d' :: rest =
        '"' :: (escape k ++ '"' :: (':' :: (w.render ++ '\x7d' :: rest))) := by
      simp [renderMembers]
    rw [h1, h2, parseStrBody_escape]
    simp [hvrec]
  | cons m2 ms2 =>
    have hcm : costMembers (m2 :: ms2) ≤ f := by
      rw [costMembers_cons] at hc
      omega
    have hrec := parseMembers_render m2 ms2 f rest hcm
    have hcw : (m.2).cost ≤ f := by
      rw [costMembers_cons] at hc
      have := costMembers_pos (m2 :: ms2)
      omega
    have hvrec := parseVal_render m.2 f
      (',' :: (renderMembers (m2 :: ms2) ++ '\x7d' :: rest)) hcw
      (noDigitStart_cons _ (by decide))
    obtain ⟨k, w⟩ := m
    replace hvrec : parseVal f (w.render ++
        ',' :: (renderMembers (m2 :: ms2) ++ '\x7d' :: rest)) =
      some (w, ',' :: (renderMembers (m2 :: ms2) ++ '\x7d' :: rest)) := hvrec
    obtain ⟨k2, w2⟩ := m2
    have h1 : renderMembers ((k, w) :: (k2, w2) :: ms2) ++ '\x7d' :: rest =
        '"' :: (escape k ++ '"' :: (':' :: (w.render ++
          ',' :: (renderMembers ((k2, w2) :: ms2) ++ '\x7d' :: rest)))) := by
      simp [renderMembers]
    rw [h1, h2, parseStrBody_escape]
    simp [hvrec, hrec]
termination_by 1 + sizeOf m + sizeOf ms
decreasing_by
  all_goals try subst_vars
  all_goals try rcases m with ⟨mk, mv⟩
  all_goals try simp_wf
  all_goals try simp
  all_goals omega

end

/-! ## Fuel bound: the parser fuel chosen by `fromJsonChars` suffices -/

theorem sizeOf_snd_lt (p : List Char × Jval) : sizeOf p.2 < sizeOf p := by
  obtain ⟨a, b⟩ := p
  simp only [Prod.mk.sizeOf_spec]
  omega

mutual

theorem cost_le_render (v : Jval) : v.cost ≤ 2 * v.render.length := by
  cases v with
  | jnull => simp [Jval.cost, Jval.render]
  | jbool b => cases b <;> simp [Jval.cost, Jval.render]
  | jint n =>
    obtain ⟨c, cs, hshape, _⟩ := render_shape (Jval.jint n)
    simp [Jval.cost, hshape]
    omega
  | jstr s =>
    simp [Jval.cost, Jval.render]
    omega
  | jarr xs =>
    have h := costElems_le_render xs
    simp [Jval.cost, Jval.render] at h ⊢
    omega
  | jobj ms =>
    have h := costMembers_le_render ms
    simp [Jval.cost, Jval.render] at h ⊢
    omega
termination_by sizeOf v
decreasing_by
  all_goals try subst_vars
  all_goals try simp_wf
  all_goals try simp
  all_goals omega

theorem costElems_le_render (xs : List Jval) :
    costElems xs ≤ 2 * (renderElems xs).length + 2 := by
  cases xs with
  | nil => simp [costElems, renderElems]
  | cons x xs2 =>
    have hx := cost_le_render x
    cases xs2 with
    | nil =>
      simp [costElems, renderElems] at hx ⊢
      omega
    | cons y ys =>
      have hys := costElems_le_render (y :: ys)
      simp [costElems, renderElems] at hx hys ⊢
      omega
termination_by sizeOf xs
decreasing_by
  all_goals try subst_vars
  all_goals try simp_wf
  all_goals try simp
  all_goals omega

theorem costMembers_le_render (ms : List (List Char × Jval)) :
    costMembers ms ≤ 2 * (renderMembers ms).length + 2 := by
  cases ms with
  | nil => simp [costMembers, renderMembers]
  | cons m ms2 =>
    have hsz := sizeOf_snd_lt m
    have hw := cost_le_render m.2
    cases ms2 with
    | nil =>
      obtain ⟨k, w⟩ := m
      simp [costMembers, renderMembers] at hw ⊢
      omega
    | cons m2 ms3 =>
      have hms := costMembers_le_render (m2 :: ms3)
      obtain ⟨k, w⟩ := m
      obtain ⟨k2, w2⟩ := m2
      simp [costMembers, renderMembers] at hw hms ⊢
      omega
termination_by sizeOf ms
decreasing_by
  all_goals try subst_vars
  all_goals try rcases m with ⟨mk, mv⟩
  all_goals try simp_wf
  all_goals try simp
  all_goals omega

end

/-- Parsing inverts rendering: the complete-document parser recovers any
rendered JSON value exactly. -/
theorem fromJson_toJson (v : Jval) : fromJsonChars v.render = some v := by
  have hcost : v.cost ≤ 2 * v.render.length + 2 :=
    le_trans (cost_le_render v) (by omega)
  have h := parseVal_render v (2 * v.render.length + 2) [] hcost noDigitStart_nil
  rw [List.append_nil] at h
  unfold fromJsonChars
  rw [h]

/-! ## The JSON codec satisfies the round-trip contract -/

theorem jsonCodec_marshal (v : Jval) : jsonCodec.marshal v = Except.ok v.render := rfl

theorem jsonCodec_unmarshal_render (v d : Jval) :
    jsonCodec.unmarshal v.render d = (none, v) := by
  unfold jsonCodec
  simp [fromJson_toJson]

/-! ## Lemmas about validation and the modelled collection -/

theorem check_none_of {V : Type} (k : String) (v : Option V) (hk : k ≠ "")
    (hv : v.isSome = true) : CheckKeyAndValue k v = none := by
  unfold CheckKeyAndValue CheckKey
  rw [if_neg hk]
  cases v with
  | some w => simp
  | none => simp at hv

theorem findId_upsertId (st : Collection) (k : String) (data : List Char) :
    findId (upsertId st k ⟨k, data⟩) k = some ⟨k, data⟩ := by
  induction st with
  | nil => simp [upsertId, findId]
  | cons j rest ih =>
    by_cases h : j.K = k
    · simp [upsertId, h, findId]
    · simp [upsertId, h, findId, ih]

theorem findId_none_of_not_mem (st : Collection) (k : String)
    (h : k ∉ st.map Item.K) : findId st k = none := by
  induction st with
  | nil => rfl
  | cons j rest ih =>
    simp only [List.map_cons, List.mem_cons] at h
    push_neg at h
    unfold findId
    rw [if_neg (fun he => h.1 he.symm)]
    exact ih h.2

theorem findId_removeId (st : Collection) (k : String) (hu : UniqueKeys st) :
    findId (removeId st k).2 k = none := by
  induction st with
  | nil => rfl
  | cons j rest ih =>
    unfold UniqueKeys at hu
    simp only [List.map_cons, List.nodup_cons] at hu
    by_cases h : j.K = k
    · simp only [removeId, h, if_pos rfl]
      exact findId_none_of_not_mem rest k (h ▸ hu.1)
    · simp only [removeId, if_neg h]
      unfold findId
      rw [if_neg h]
      exact ih hu.2

theorem removeId_fst (st : Collection) (k : String) :
    (removeId st k).1 = none ∨ (removeId st k).1 = some Err.notFound := by
  induction st with
  | nil => right; rfl
  | cons j rest ih =>
    by_cases h : j.K = k
    · left; simp [removeId, h]
    · simpa [removeId, h] using ih

theorem deleteWithContext_eq {V : Type} (c : Client V) (ctx : Ctx) (st : Collection)
    (k : String) (hk : k ≠ "") :
    c.DeleteWithContext ctx st k = (none, (removeId st k).2) := by
  unfold Client.DeleteWithContext CheckKey
  rw [if_neg hk]
  rcases removeId_fst st k with h | h <;> simp [h]

/-! ## Helper lemmas shared by the claim theorems -/

theorem get_absent_aux {V : Type} (c : Client V) (ctx : Ctx) (st : Collection)
    (k : String) (v : Option V) (hk : k ≠ "") (hv : v.isSome = true)
    (habs : findId st k = none) :
    c.GetWithContext ctx st k v = (false, none, v) := by
  unfold Client.GetWithContext
  rw [check_none_of k v hk hv, habs]

theorem get_present_aux {V : Type} (c : Client V) (ctx : Ctx) (st : Collection)
    (k : String) (d : V) (it : Item) (e : Err) (d' : V)
    (hk : k ≠ "") (hf : findId st k = some it)
    (hum : c.codec.unmarshal it.V d = (some e, d')) :
    c.GetWithContext ctx st k (some d) = (true, some e, some d') := by
  unfold Client.GetWithContext
  rw [check_none_of k (some d) hk rfl, hf]
  simp [hum]

/-! ## The claims -/

/-- C1: for every key `k` absent from the store (a Key being a non-empty
string per the data model, with a non-nil destination as Get requires),
`GetWithContext` returns `(false, nil)`: found is false and the error is
nil, not a non-nil error; the destination is left as it was. -/
theorem getAbsent_false_nil {V : Type} (c : Client V) (ctx : Ctx) (st : Collection)
    (k : String) (v : Option V) (hk : k ≠ "") (hv : v.isSome = true)
    (habs : findId st k = none) :
    c.GetWithContext ctx st k v = (false, none, v) :=
  get_absent_aux c ctx st k v hk hv habs

/-- C1 witness: on the empty collection, `Get "a"` returns `(false, nil)`. -/
theorem getAbsent_false_nil_witness :
    jsonClient.GetWithContext Ctx.background [] "a" (some Jval.jnull) =
      (false, none, some Jval.jnull) :=
  getAbsent_false_nil jsonClient Ctx.background [] "a" (some Jval.jnull)
    (by decide) rfl rfl

/-- C2: after `Set k v1` then `Set k v2` (non-empty key, codec succeeding on
`v2` and satisfying the round-trip on it), the second `Set` succeeds and a
`Get` on `k` returns `(true, nil)` with the destination populated with `v2`:
the second `Set` overwrote the entry. -/
theorem set_set_get_overwrites {V : Type} (c : Client V) (st : Collection) (k : String)
    (w1 w2 d : V) (b2 : List Char) (hk : k ≠ "")
    (hm2 : c.codec.marshal w2 = Except.ok b2)
    (hrt : c.codec.unmarshal b2 d = (none, w2)) :
    (c.Set (c.Set st k (some w1)).2 k (some w2)).1 = none ∧
    c.Get (c.Set (c.Set st k (some w1)).2 k (some w2)).2 k (some d) =
      (true, none, some w2) := by
  have hset : ∀ st1 : Collection, c.Set st1 k (some w2) = (none, upsertId st1 k ⟨k, b2⟩) := by
    intro st1
    unfold Client.Set Client.SetWithContext
    rw [check_none_of k (some w2) hk rfl]
    simp [hm2]
  constructor
  · rw [hset]
  · rw [hset]
    unfold Client.Get Client.GetWithContext
    rw [check_none_of k (some d) hk rfl, findId_upsertId]
    simp [hrt]

/-- C2 witness: overwriting `"a"` with a string value and reading it back
through the JSON codec yields the second value. -/
theorem set_set_get_overwrites_witness :
    (jsonClient.Set (jsonClient.Set [] "a" (some (Jval.jbool false))).2 "a"
        (some (Jval.jstr ['h', 'i']))).1 = none ∧
    jsonClient.Get (jsonClient.Set (jsonClient.Set [] "a" (some (Jval.jbool false))).2 "a"
        (some (Jval.jstr ['h', 'i']))).2 "a" (some Jval.jnull) =
      (true, none, some (Jval.jstr ['h', 'i'])) :=
  set_set_get_overwrites jsonClient [] "a" (Jval.jbool false) (Jval.jstr ['h', 'i'])
    Jval.jnull (Jval.jstr ['h', 'i']).render (by decide) rfl
    (jsonCodec_unmarshal_render (Jval.jstr ['h', 'i']) Jval.jnull)

/-- C3: `Set` and `Get` with the empty key fail with the invalid-key error
(whatever the value or destination), and `Set` with a nil value fails with
the invalid-value error for every key `k` (a Key being non-empty per the
data model; with `k = ""` the key check fires first instead). -/
theorem validation_law {V : Type} (c : Client V) (ctx : Ctx) (st : Collection)
    (v : Option V) (out : Option V) (k : String) (hk : k ≠ "") :
    (c.SetWithContext ctx st "" v).1 = some Err.invalidKey ∧
    (c.GetWithContext ctx st "" out).1 = false ∧
    (c.GetWithContext ctx st "" out).2.1 = some Err.invalidKey ∧
    (c.SetWithContext ctx st k none).1 = some Err.invalidValue := by
  have h1 : CheckKeyAndValue "" v = some Err.invalidKey := rfl
  have h2 : CheckKeyAndValue "" out = some Err.invalidKey := rfl
  have h3 : CheckKeyAndValue k (none : Option V) = some Err.invalidValue := by
    unfold CheckKeyAndValue CheckKey
    rw [if_neg hk]
    rfl
  refine ⟨?_, ?_, ?_, ?_⟩
  · unfold Client.SetWithContext
    rw [h1]
  · unfold Client.GetWithContext
    rw [h2]
  · unfold Client.GetWithContext
    rw [h2]
  · unfold Client.SetWithContext
    rw [h3]

/-- C3 witness: the validation errors at concrete arguments. -/
theorem validation_law_witness :
    (jsonClient.SetWithContext Ctx.background [] "" (some Jval.jnull)).1 =
        some Err.invalidKey ∧
    (jsonClient.GetWithContext Ctx.background [] "" (some Jval.jnull)).1 = false ∧
    (jsonClient.GetWithContext Ctx.background [] "" (some Jval.jnull)).2.1 =
        some Err.invalidKey ∧
    (jsonClient.SetWithContext Ctx.background [] "k" none).1 = some Err.invalidValue :=
  validation_law jsonClient Ctx.background [] (some Jval.jnull) (some Jval.jnull)
    "k" (by decide)

/-- C4: for every value on which `Marshal` succeeds, `Unmarshal` applied to
`Marshal`'s output (into any destination of the same type) succeeds and
yields the original value — the codec round-trip law, for the JSON codec. -/
theorem codec_roundtrip (v d : Jval) (bs : List Char)
    (hm : jsonCodec.marshal v = Except.ok bs) :
    jsonCodec.unmarshal bs d = (none, v) := by
  have h2 : (Except.ok v.render : Except Err (List Char)) = Except.ok bs := hm
  rw [Except.ok.injEq] at h2
  rw [← h2]
  exact jsonCodec_unmarshal_render v d

/-- C4 witness: round-trip of a nested concrete document. -/
theorem codec_roundtrip_witness :
    jsonCodec.unmarshal
        (Jval.jobj [(['i', 'd'], Jval.jint 42),
          (['t', 'a', 'g', 's'], Jval.jarr [Jval.jstr ['a'], Jval.jbool true, Jval.jnull]),
          (['n', 'a', 'm', 'e'], Jval.jstr ['g', 'o', '"', 'k', 'v'])]).render
        Jval.jnull =
      (none,
        Jval.jobj [(['i', 'd'], Jval.jint 42),
          (['t', 'a', 'g', 's'], Jval.jarr [Jval.jstr ['a'], Jval.jbool true, Jval.jnull]),
          (['n', 'a', 'm', 'e'], Jval.jstr ['g', 'o', '"', 'k', 'v'])]) :=
  codec_roundtrip
    (Jval.jobj [(['i', 'd'], Jval.jint 42),
      (['t', 'a', 'g', 's'], Jval.jarr [Jval.jstr ['a'], Jval.jbool true, Jval.jnull]),
      (['n', 'a', 'm', 'e'], Jval.jstr ['g', 'o', '"', 'k', 'v'])])
    Jval.jnull _ rfl

/-- C5: whenever `Get` reports `found = false` — validation failure or a
genuinely absent key — the caller's destination is left completely
unmodified. -/
theorem get_not_found_dest_unchanged {V : Type} (c : Client V) (ctx : Ctx)
    (st : Collection) (k : String) (v : Option V)
    (h : (c.GetWithContext ctx st k v).1 = false) :
    (c.GetWithContext ctx st k v).2.2 = v := by
  unfold Client.GetWithContext at h ⊢
  cases hcv : CheckKeyAndValue k v with
  | some e => simp [hcv]
  | none =>
    cases hf : findId st k with
    | none => simp [hcv, hf]
    | some it =>
      cases v with
      | none => simp [hcv, hf]
      | some d => simp [hcv, hf] at h

/-- C5 witness: a `Get` on a fresh store leaves the destination unchanged. -/
theorem get_not_found_dest_unchanged_witness :
    (jsonClient.GetWithContext Ctx.background [] "a" (some Jval.jnull)).2.2 =
      some Jval.jnull :=
  get_not_found_dest_unchanged jsonClient Ctx.background [] "a" (some Jval.jnull) rfl

/-- C6: for a non-empty key, `Delete` returns a nil error whether or not the
key is present (so deleting an absent key is not an error), and after the
`Delete` a `Get` on the key returns `(false, nil)` — `Delete` is idempotent.
`UniqueKeys` is the `_id` uniqueness MongoDB maintains for every collection. -/
theorem delete_idempotent {V : Type} (c : Client V) (st : Collection) (k : String)
    (d : V) (hk : k ≠ "") (hu : UniqueKeys st) :
    (c.Delete st k).1 = none ∧
    c.Get (c.Delete st k).2 k (some d) = (false, none, some d) := by
  unfold Client.Delete Client.Get
  rw [deleteWithContext_eq c Ctx.background st k hk]
  exact ⟨rfl, get_absent_aux c Ctx.background _ k (some d) hk rfl
    (findId_removeId st k hu)⟩

/-- C6 witness: deleting a present key then reading it back. -/
theorem delete_idempotent_witness :
    (jsonClient.Delete [⟨"a", ['n', 'u', 'l', 'l']⟩] "a").1 = none ∧
    jsonClient.Get (jsonClient.Delete [⟨"a", ['n', 'u', 'l', 'l']⟩] "a").2 "a"
        (some Jval.jnull) = (false, none, some Jval.jnull) :=
  delete_idempotent jsonClient [⟨"a", ['n', 'u', 'l', 'l']⟩] "a" Jval.jnull
    (by decide) (by unfold UniqueKeys; simp)

/-- C7: an operation whose arguments fail validation returns that validation
error unchanged, and the collection (and for `Get` the destination) is
exactly what it was before the call — validation runs before any engine
interaction. -/
theorem validation_error_unchanged {V : Type} (c : Client V) (ctx : Ctx)
    (st : Collection) (k : String) (v : Option V) :
    (∀ e, CheckKeyAndValue k v = some e → c.SetWithContext ctx st k v = (some e, st)) ∧
    (∀ e, CheckKeyAndValue k v = some e →
      c.GetWithContext ctx st k v = (false, some e, v)) ∧
    (∀ e, CheckKey k = some e → c.DeleteWithContext ctx st k = (some e, st)) := by
  refine ⟨fun e he => ?_, fun e he => ?_, fun e he => ?_⟩
  · unfold Client.SetWithContext
    rw [he]
  · unfold Client.GetWithContext
    rw [he]
  · unfold Client.DeleteWithContext
    rw [he]

/-- C7 witness: `Set` with the empty key returns the invalid-key error and
the untouched store. -/
theorem validation_error_unchanged_witness :
    jsonClient.SetWithContext Ctx.background [⟨"a", ['x']⟩] "" (some Jval.jnull) =
      (some Err.invalidKey, [⟨"a", ['x']⟩]) :=
  (validation_error_unchanged jsonClient Ctx.background [⟨"a", ['x']⟩] ""
    (some Jval.jnull)).1 Err.invalidKey rfl

/-- C8: `(false, nil)` from `Get` implies the key is genuinely absent from
the collection (validation and codec failures are never reported that way),
and a present key whose payload fails to unmarshal surfaces the non-nil
codec error from `Get` rather than `found = false`. -/
theorem get_false_nil_only_absent {V : Type} (c : Client V) (ctx : Ctx)
    (st : Collection) (k : String) (v : Option V) :
    ((c.GetWithContext ctx st k v).1 = false ∧
      (c.GetWithContext ctx st k v).2.1 = none → findId st k = none) ∧
    (∀ it e d d', k ≠ "" → findId st k = some it →
      c.codec.unmarshal it.V d = (some e, d') →
      c.GetWithContext ctx st k (some d) = (true, some e, some d')) := by
  constructor
  · intro h
    obtain ⟨h1, h2⟩ := h
    unfold Client.GetWithContext at h1 h2
    cases hcv : CheckKeyAndValue k v with
    | some e => simp [hcv] at h2
    | none =>
      cases hf : findId st k with
      | none => rfl
      | some it =>
        cases v with
        | none => simp [hcv, hf] at h2
        | some d => simp [hcv, hf] at h1
  · intro it e d d' hk hf hum
    exact get_present_aux c ctx st k d it e d' hk hf hum

/-- C8 witness: a malformed stored payload surfaces from `Get` as a
deserialization error with `found = true`, not as `(false, nil)`. -/
theorem get_false_nil_only_absent_witness :
    jsonClient.GetWithContext Ctx.background [⟨"a", ['x']⟩] "a" (some Jval.jnull) =
      (true, some Err.deserialization, some Jval.jnull) :=
  (get_false_nil_only_absent jsonClient Ctx.background [⟨"a", ['x']⟩] "a"
      (some Jval.jnull)).2
    ⟨"a", ['x']⟩ Err.deserialization Jval.jnull Jval.jnull (by decide) rfl rfl

/-- C9: when the key is present but the stored payload fails to unmarshal
into the destination, `Get` returns `found = true` together with the
non-nil unmarshal error (never `found = false`), and the destination holds
whatever the codec left in it. -/
theorem get_present_unmarshal_error {V : Type} (c : Client V) (ctx : Ctx)
    (st : Collection) (k : String) (d : V) (it : Item) (e : Err) (d' : V)
    (hk : k ≠ "") (hf : findId st k = some it)
    (hum : c.codec.unmarshal it.V d = (some e, d')) :
    (c.GetWithContext ctx st k (some d)).1 = true ∧
    (c.GetWithContext ctx st k (some d)).2.1 = some e ∧
    (c.GetWithContext ctx st k (some d)).2.2 = some d' := by
  have h := get_present_aux c ctx st k d it e d' hk hf hum
  rw [h]
  exact ⟨rfl, rfl, rfl⟩

/-- C9 witness: reading a key holding a malformed payload yields
`found = true` and the deserialization error. -/
theorem get_present_unmarshal_error_witness :
    (jsonClient.GetWithContext Ctx.background [⟨"k", ['y']⟩] "k" (some (Jval.jbool true))).1 =
        true ∧
    (jsonClient.GetWithContext Ctx.background [⟨"k", ['y']⟩] "k"
        (some (Jval.jbool true))).2.1 = some Err.deserialization ∧
    (jsonClient.GetWithContext Ctx.background [⟨"k", ['y']⟩] "k"
        (some (Jval.jbool true))).2.2 = some (Jval.jbool true) :=
  get_present_unmarshal_error jsonClient Ctx.background [⟨"k", ['y']⟩] "k"
    (Jval.jbool true) ⟨"k", ['y']⟩ Err.deserialization (Jval.jbool true)
    (by decide) rfl rfl

/-- C10: for every context, key and value, the context-taking variants are
observably identical to the plain ones — the context argument is discarded,
so `Set`/`Get`/`Delete` and their `WithContext` counterparts agree. -/
theorem withContext_eq_plain {V : Type} (c : Client V) (ctx : Ctx) (st : Collection)
    (k : String) (v : Option V) :
    c.SetWithContext ctx st k v = c.Set st k v ∧
    c.GetWithContext ctx st k v = c.Get st k v ∧
    c.DeleteWithContext ctx st k = c.Delete st k :=
  ⟨rfl, rfl, rfl⟩

end Gokv
